import Mathlib

/-!
Verification of the checkbox reconciliation logic of the Check Please
plugin (src/main.ts). Documents are modelled as lists of characters;
every definition below is a direct translation of the corresponding
JavaScript/TypeScript code in src/main.ts.
-/

set_option maxRecDepth 10000

/-- A document or fragment of text, modelled as a list of characters. -/
abbrev Str := List Char

/-- Convert a Lean string literal to the character-list model. -/
def str (s : String) : Str := s.data

/-- The character class inside a checkbox token: space, lowercase x, uppercase X
(the regex character class in /\[[ xX]\]/ at main.ts:109, 152, 211). -/
def isStateChar (c : Char) : Bool := c == ' ' || c == 'x' || c == 'X'

/-- Whether a matched token denotes a checked box
(match[0] === given as a disjunction at main.ts:113, 156, 233). -/
def isCheckedTok (t : Str) : Bool := t == str "[x]" || t == str "[X]"

/-- The replacement token text written on toggle in rendered mode:
newCheckboxText = checked ? "[x]" : "[ ]" (main.ts:260). -/
def newCheckboxText (checked : Bool) : Str :=
  if checked then str "[x]" else str "[ ]"

/-- All matches of the global regex /\[[ xX]\]/g over a text, scanning left to
right without overlap, starting at running index i. Each element is the match
index paired with the matched 3-character token (main.ts:109-115). -/
def checkboxMatchesAux : Str → Nat → List (Nat × Str)
  | [], _ => []
  | '[' :: c :: ']' :: rest, i =>
    if isStateChar c then (i, ['[', c, ']']) :: checkboxMatchesAux rest (i + 3)
    else checkboxMatchesAux (c :: ']' :: rest) (i + 1)
  | _ :: rest, i => checkboxMatchesAux rest (i + 1)

/-- Matches of the checkbox regex over a text, with indices from 0. -/
def checkboxMatches (s : Str) : List (Nat × Str) := checkboxMatchesAux s 0

/-- JavaScript String.prototype.includes: does s contain pat as a substring. -/
def containsStr : Str → Str → Bool
  | [], pat => pat.isEmpty
  | c :: rest, pat => pat.isPrefixOf (c :: rest) || containsStr rest pat

/-- JavaScript String.prototype.replace with a string pattern: replace the
first occurrence of pat in the subject by repl; identity when pat is absent. -/
def replaceFirst (pat repl : Str) : Str → Str
  | [] => if pat.isPrefixOf ([] : Str) then repl else []
  | c :: rest =>
    if pat.isPrefixOf (c :: rest) then repl ++ (c :: rest).drop pat.length
    else c :: replaceFirst pat repl rest

/-- JavaScript String.prototype.trim, removing whitespace at both ends. -/
def jsTrim (s : Str) : Str :=
  ((s.dropWhile Char.isWhitespace).reverse.dropWhile Char.isWhitespace).reverse

/-- The cells of a table line: line.split('|').map(trim).filter(nonempty)
(main.ts:304, 339). -/
def lineCells (line : Str) : List Str :=
  ((line.splitOn '|').map jsTrim).filter (fun c => !c.isEmpty)

/-- Replace every newline by a space (rowText.replace(/\n/g, ' '), main.ts:278). -/
def newlinesToSpaces (s : Str) : Str :=
  s.map (fun c => if c == '\n' then ' ' else c)

/-- Collapse every run of whitespace to a single space
(.replace(/\s+/g, ' '), main.ts:278). -/
def collapseWs : Str → Str
  | [] => []
  | [c] => if c.isWhitespace then [' '] else [c]
  | c1 :: c2 :: rest =>
    if c1.isWhitespace then
      if c2.isWhitespace then collapseWs (c2 :: rest)
      else ' ' :: collapseWs (c2 :: rest)
    else c1 :: collapseWs (c2 :: rest)

/-- cleanRowText (main.ts:278): newlines to spaces, collapse whitespace, trim. -/
def cleanRowText (rowText : Str) : Str :=
  jsTrim (collapseWs (newlinesToSpaces rowText))

/-- The test word.match(/^\d+$/) : a nonempty all-digit word (main.ts:282). -/
def isNumericWord (w : Str) : Bool := !w.isEmpty && w.all Char.isDigit

/-- Key words extracted from the fingerprint row text (main.ts:279-283):
words of the cleaned row text of length greater than 2, excluding the literal
tokens and purely numeric words. -/
def keyWordsOf (rowText : Str) : List Str :=
  ((cleanRowText rowText).splitOn ' ').filter (fun w =>
    decide (w.length > 2) && !(w == str "[x]" || w == str "[ ]") && !isNumericWord w)

mutual

/-- Splitting on a separator class, main loop: accumulate the current token
(reversed in acc) until a separator is hit. Models String.split with the
regex class of main.ts:294. -/
def splitSepsGo (p : Char → Bool) : Str → Str → List Str
  | acc, [] => [acc.reverse]
  | acc, c :: rest =>
    if p c then acc.reverse :: splitSepsDrop p rest
    else splitSepsGo p (c :: acc) rest

/-- Splitting on a separator class, after at least one separator was consumed:
consume the rest of the separator run, then continue with the next token. -/
def splitSepsDrop (p : Char → Bool) : Str → List Str
  | [] => [[]]
  | c :: rest => if p c then splitSepsDrop p rest else splitSepsGo p [c] rest

end

/-- JavaScript String.split with a one-or-more separator-class regex: maximal
separator runs delimit tokens, with empty tokens at the ends when the text
starts or ends with a separator. -/
def splitSeps (p : Char → Bool) (s : Str) : List Str := splitSepsGo p [] s

/-- The separator class [\s|] of main.ts:294. -/
def isWsOrPipe (c : Char) : Bool := c.isWhitespace || c == '|'

/-- Line tokens for scoring (main.ts:294): lowercase the line, split on
whitespace and pipes, keep tokens of length greater than 2. -/
def lineWords (line : Str) : List Str :=
  (splitSeps isWsOrPipe (line.map Char.toLower)).filter (fun w => decide (w.length > 2))

/-- The key words matched by a candidate line (main.ts:295-300): a key word
counts when some line token contains it, or it contains some line token,
comparing lowercased. -/
def matchedWordsOf (keyWords : List Str) (line : Str) : List Str :=
  keyWords.filter (fun word =>
    (lineWords line).any (fun lw =>
      containsStr lw (word.map Char.toLower) || containsStr (word.map Char.toLower) lw))

/-- The context fingerprint embedded in a rendered checkbox control
(contextKey of main.ts:236, parsed back at main.ts:263-267). -/
structure Fingerprint where
  rowText : Str
  cellPosition : Nat
  offset : Nat
  originalCheckbox : Str
  deriving Repr, DecidableEq

/-- One entry of potentialMatches (main.ts:286, 309-314). -/
structure Candidate where
  lineIndex : Nat
  line : Str
  matchScore : Nat
  matchedWords : List Str
  deriving Repr, DecidableEq

/-- The loop body of the candidate scan (main.ts:288-319) for one line: a line
is a candidate when it contains a pipe and the literal original token, its
key-word match score is positive, and its cell at the fingerprint cell
position exists and literally contains the original token. -/
def candidateAt (keyWords : List Str) (cellPosition : Nat) (tok : Str)
    (i : Nat) (line : Str) : Option Candidate :=
  if containsStr line (str "|") && containsStr line tok then
    if (matchedWordsOf keyWords line).length > 0 then
      if cellPosition < (lineCells line).length then
        if containsStr ((lineCells line).getD cellPosition []) tok then
          some ⟨i, line, (matchedWordsOf keyWords line).length, matchedWordsOf keyWords line⟩
        else none
      else none
    else none
  else none

/-- The candidate list built by the scan of main.ts:288-319 over all lines. -/
def potentialMatchesOf (keyWords : List Str) (cellPosition : Nat) (tok : Str)
    (lines : List Str) : List Candidate :=
  lines.enum.filterMap (fun p => candidateAt keyWords cellPosition tok p.1 p.2)

/-- The order imposed by the sort comparator of main.ts:324-329: higher score
first, ties broken by lower line index. -/
def candLE (a b : Candidate) : Prop :=
  if a.matchScore = b.matchScore then a.lineIndex ≤ b.lineIndex
  else b.matchScore < a.matchScore

instance : DecidableRel candLE := fun a b => by unfold candLE; exact inferInstance

instance : IsTotal Candidate candLE :=
  ⟨by intro a b; unfold candLE; split <;> split <;> omega⟩

instance : IsTrans Candidate candLE :=
  ⟨by intro a b c; unfold candLE; split <;> split <;> split <;> omega⟩

/-- Selection of the best candidate (main.ts:322-333): when the candidate
list is nonempty, sort it by the comparator and take the first element. -/
def selectTarget (keyWords : List Str) (cellPosition : Nat) (tok : Str)
    (lines : List Str) : Option Candidate :=
  let pm := potentialMatchesOf keyWords cellPosition tok lines
  if pm.isEmpty then none else (List.insertionSort candLE pm).head?

/-- The in-cell disambiguation and line update (main.ts:338-393), producing the
updated line when a write happens. With more than one checkbox match in the
target cell, the first match within tolerance 2 of the fingerprint offset and
textually equal to the original token is replaced by rebuilding the cell at
that exact offset and the line from its cells; otherwise (and with at most one
match) the first occurrence of the original token in the line is replaced,
writing only when the line changed. -/
def toggleTargetLine (newTok tok : Str) (cellPosition offset : Nat)
    (targetLine : Str) : Option Str :=
  let cells := lineCells targetLine
  if cellPosition < cells.length then
    let targetCell := cells.getD cellPosition []
    let ms := checkboxMatches targetCell
    if ms.length > 1 then
      match ms.find? (fun m =>
          decide (((m.1 : Int) - (offset : Int)).natAbs ≤ 2) && m.2 == tok) with
      | some m =>
        let updatedCell := targetCell.take m.1 ++ newTok ++ targetCell.drop (m.1 + 3)
        some (str "| " ++ List.intercalate (str " | ") (cells.set cellPosition updatedCell) ++ str " |")
      | none =>
        let updatedLine := replaceFirst tok newTok targetLine
        if updatedLine = targetLine then none else some updatedLine
    else
      let updatedLine := replaceFirst tok newTok targetLine
      if updatedLine = targetLine then none else some updatedLine
  else none

/-- The rendered-mode toggle handler (main.ts:258-404): split the document
into lines, select the target line by fuzzy re-localization, apply the in-cell
update to it and write the joined lines; with no target line fall back to a
document-wide first-occurrence replace, writing only when the text changed.
The returned value is the content written by vault.modify, or none when no
write happens. -/
def renderedToggle (checked : Bool) (fp : Fingerprint) (content : Str) : Option Str :=
  let newTok := newCheckboxText checked
  let lines := content.splitOn '\n'
  let keyWords := keyWordsOf fp.rowText
  match selectTarget keyWords fp.cellPosition fp.originalCheckbox lines with
  | some best =>
    (toggleTargetLine newTok fp.originalCheckbox fp.cellPosition fp.offset
        (lines.getD best.lineIndex [])).map
      (fun ul => List.intercalate (str "\n") (lines.set best.lineIndex ul))
  | none =>
    let updatedContent := replaceFirst fp.originalCheckbox newTok content
    if updatedContent = content then none else some updatedContent

/-- The fingerprints recorded at render time for the checkbox tokens of one
cell (main.ts:229-251): one per regex match over the raw cell text, carrying
the row text, the cell position and the match offset in the raw cell text. -/
def renderFingerprints (rowText : Str) (cellPosition : Nat) (cellText : Str) :
    List Fingerprint :=
  (checkboxMatches cellText).map (fun m => ⟨rowText, cellPosition, m.1, m.2⟩)

/-- The live-mode toggle (CheckboxWidget click handler, main.ts:46-59): a
single-character replacement at positions [start+1, start+2) with the state
character of the new checked state. -/
def livePatch (doc : Str) (start : Nat) (checked : Bool) : Str :=
  doc.take (start + 1) ++ [if checked then 'x' else ' '] ++ doc.drop (start + 2)

/-- The control set built by processCheckboxesInContent (main.ts:108-131):
for every regex match, skip it when the cursor lies strictly inside the match,
otherwise emit a control (start, end, checked) at absolute offsets. -/
def controlsInContent (content : Str) (offset : Nat) (cursorPos : Nat) :
    List (Nat × Nat × Bool) :=
  (checkboxMatches content).filterMap (fun m =>
    if offset + m.1 < cursorPos ∧ cursorPos < offset + m.1 + m.2.length then none
    else some (offset + m.1, offset + m.1 + m.2.length, isCheckedTok m.2))

/-- One match attempt of the regex /\{\d+\}\{\d+\}/ at the head of the text:
on success, return the text after the matched annotation. -/
def parseAnnot (s : Str) : Option Str :=
  match s with
  | '{' :: rest =>
    if (rest.takeWhile Char.isDigit).isEmpty then none
    else
      match rest.drop (rest.takeWhile Char.isDigit).length with
      | '}' :: '{' :: rest2 =>
        if (rest2.takeWhile Char.isDigit).isEmpty then none
        else
          match rest2.drop (rest2.takeWhile Char.isDigit).length with
          | '}' :: rest3 => some rest3
          | _ => none
      | _ => none
  | _ => none

/-- The global replace of /\{\d+\}\{\d+\}/g by the empty string
(main.ts:433), as a left-to-right scan deleting every match. The fuel
argument bounds the recursion; since every step consumes at least one
character, fuel equal to the text length suffices. -/
def removeAnnotsFuel : Nat → Str → Str
  | 0, s => s
  | _ + 1, [] => []
  | fuel + 1, c :: rest =>
    match parseAnnot (c :: rest) with
    | some rest3 => removeAnnotsFuel fuel rest3
    | none => c :: removeAnnotsFuel fuel rest

/-- cleanedContent of main.ts:433. -/
def removeAnnots (s : Str) : Str := removeAnnotsFuel s.length s

/-- Whether the annotation pattern occurs anywhere in the text. -/
def hasAnnot : Str → Bool
  | [] => false
  | c :: rest => (parseAnnot (c :: rest)).isSome || hasAnnot rest

/-- cleanupAnnotations (main.ts:429-438): compute the cleaned text and write
it back only when it differs from the current content. -/
def cleanupAnnotations (content : Str) : Option Str :=
  let cleanedContent := removeAnnots content
  if cleanedContent = content then none else some cleanedContent

/-! Helper lemmas. -/

/-- The live patch commutes with an untouched leading character. -/
theorem livePatch_cons (c : Char) (doc : Str) (n : Nat) (b : Bool) :
    livePatch (c :: doc) (n + 1) b = c :: livePatch doc n b := by
  simp [livePatch, List.take_succ_cons, List.drop_succ_cons]

/-- A filterMap whose function is an if-then-none-else-some is a filter
followed by a map. -/
theorem filterMap_ite_none {α β : Type} (p : α → Prop) [DecidablePred p]
    (f : α → β) (l : List α) :
    l.filterMap (fun a => if p a then none else some (f a))
      = (l.filter (fun a => !decide (p a))).map f := by
  induction l with
  | nil => rfl
  | cons a l ih => by_cases h : p a <;> simp [h, ih]

/-- Cleaning does nothing on a text without the annotation pattern. -/
theorem removeAnnotsFuel_of_not_hasAnnot (fuel : Nat) (s : Str)
    (h : hasAnnot s = false) : removeAnnotsFuel fuel s = s := by
  induction fuel generalizing s with
  | zero => rfl
  | succ fuel ih =>
    cases s with
    | nil => rfl
    | cons c rest =>
      simp only [hasAnnot, Bool.or_eq_false_iff] at h
      obtain ⟨h1, h2⟩ := h
      cases hp : parseAnnot (c :: rest) with
      | some r => rw [hp] at h1; simp at h1
      | none => simp [removeAnnotsFuel, hp, ih rest h2]

/-! Claim theorems. -/

/-- The live-mode single-character patch round trip is byte-identical on a
lowercase checked token. -/
theorem livePatch_roundTrip (u v : Str) :
    livePatch (livePatch (u ++ '[' :: 'x' :: ']' :: v) u.length false) u.length true
      = u ++ '[' :: 'x' :: ']' :: v := by
  induction u with
  | nil => rfl
  | cons c u ih =>
    simpa [List.cons_append, List.length_cons, livePatch_cons] using ih

/-- First-occurrence replace lands on the exhibited occurrence when no
character of the text before it can start the pattern. -/
theorem replaceFirst_at_marked (c0 : Char) (tokRest new u v : Str) (hu : c0 ∉ u) :
    replaceFirst (c0 :: tokRest) new (u ++ (c0 :: tokRest) ++ v) = u ++ new ++ v := by
  induction u with
  | nil =>
    simp only [List.nil_append]
    have hp : (c0 :: tokRest).isPrefixOf ((c0 :: tokRest) ++ v) = true := by
      rw [List.isPrefixOf_iff_prefix]
      exact ⟨v, rfl⟩
    rw [List.cons_append, replaceFirst, ← List.cons_append, if_pos hp, List.drop_left]
  | cons c u' ih =>
    have hc : ¬(c0 = c) := fun he => hu (he ▸ List.mem_cons_self c u')
    have hp : (c0 :: tokRest).isPrefixOf (c :: (u' ++ (c0 :: tokRest) ++ v)) = false := by
      simp [List.isPrefixOf, hc]
    simp only [List.cons_append]
    rw [replaceFirst, hp]
    simp only [Bool.false_eq_true, if_false]
    have := ih (fun hmem => hu (List.mem_cons_of_mem _ hmem))
    simp only [List.cons_append] at this ⊢
    rw [this]

/-- Splicing a 3-character token at the exact offset of an existing
3-character token swaps the tokens and keeps every other byte. -/
theorem splice_at_token (u t t2 v : Str) (ht : t.length = 3) :
    (u ++ t ++ v).take u.length ++ t2 ++ (u ++ t ++ v).drop (u.length + 3) = u ++ t2 ++ v := by
  have h1 : (u ++ t ++ v).take u.length = u := by
    rw [List.append_assoc, List.take_left]
  have h2 : (u ++ t ++ v).drop (u.length + 3) = v := by
    rw [List.append_assoc, List.drop_append_eq_append_drop, List.drop_append_eq_append_drop]
    simp [ht, List.drop_eq_nil_of_le, Nat.sub_eq_zero_of_le]
  rw [h1, h2]

/-- Joining two or more cells starts with the first cell and the separator. -/
theorem intercalate_cons_cons (sep a b : Str) (l : List Str) :
    List.intercalate sep (a :: b :: l) = a ++ sep ++ List.intercalate sep (b :: l) := by
  simp [List.intercalate, List.intersperse]

/-- Joining a single cell is that cell. -/
theorem intercalate_single (sep a : Str) : List.intercalate sep [a] = a := by
  simp [List.intercalate, List.intersperse]

/-- A dropWhile that keeps the length keeps the list. -/
theorem dropWhile_eq_self_of_length (p : Char → Bool) (l : Str)
    (h : (l.dropWhile p).length = l.length) : l.dropWhile p = l := by
  cases l with
  | nil => rfl
  | cons x xs =>
    by_cases hx : p x
    · rw [List.dropWhile_cons, if_pos hx] at h ⊢
      have := (List.dropWhile_sublist (l := xs) p).length_le
      simp at h
      omega
    · rw [List.dropWhile_cons, if_neg hx]

/-- A text equal to its own trim has no leading or trailing whitespace. -/
theorem jsTrim_eq_self_parts (c : Str) (h : jsTrim c = c) :
    c.dropWhile Char.isWhitespace = c
    ∧ c.reverse.dropWhile Char.isWhitespace = c.reverse := by
  have hlen : (jsTrim c).length = c.length := by rw [h]
  have h1le := (List.dropWhile_sublist (l := c) Char.isWhitespace).length_le
  have h2le := (List.dropWhile_sublist (l := (c.dropWhile Char.isWhitespace).reverse)
    Char.isWhitespace).length_le
  unfold jsTrim at hlen
  simp only [List.length_reverse] at hlen h2le
  have h1 : c.dropWhile Char.isWhitespace = c :=
    dropWhile_eq_self_of_length _ _ (by omega)
  rw [h1] at h2le ⊢
  refine ⟨rfl, dropWhile_eq_self_of_length _ _ ?_⟩
  rw [h1] at hlen
  simp only [List.length_reverse] at hlen ⊢
  omega

/-- Trimming undoes the one-space padding the line rebuild adds around a
trimmed nonempty cell. -/
theorem jsTrim_pad (c : Str) (h : jsTrim c = c) (hne : c ≠ []) :
    jsTrim (' ' :: (c ++ [' '])) = c := by
  obtain ⟨h1, h2⟩ := jsTrim_eq_self_parts c h
  obtain ⟨x, xs, rfl⟩ := List.exists_cons_of_ne_nil hne
  have hx : Char.isWhitespace x = false := by
    by_contra hx'
    rw [Bool.not_eq_false] at hx'
    rw [List.dropWhile_cons, if_pos hx'] at h1
    have := (List.dropWhile_sublist (l := xs) Char.isWhitespace).length_le
    have := congrArg List.length h1
    simp at this
    omega
  unfold jsTrim
  rw [List.dropWhile_cons, if_pos (by decide)]
  rw [show (x :: xs) ++ [' '] = x :: (xs ++ [' ']) from rfl]
  rw [List.dropWhile_cons, if_neg (by rw [hx]; exact Bool.false_ne_true)]
  rw [show x :: (xs ++ [' ']) = (x :: xs) ++ [' '] from rfl]
  rw [List.reverse_append]
  rw [show ([' '] : Str).reverse = [' '] from rfl]
  rw [show ([' '] : Str) ++ (x :: xs).reverse = ' ' :: (x :: xs).reverse from rfl]
  rw [List.dropWhile_cons, if_pos (by decide), h2, List.reverse_reverse]

/-- Splitting the rebuilt pipe-free cells on the pipe recovers the padded
cells followed by the final empty segment. -/
theorem splitOn_pipe_aux (cells : List Str) :
    ∀ c : Str, '|' ∉ c → (∀ x ∈ cells, '|' ∉ x) →
    (' ' :: (List.intercalate (str " | ") (c :: cells) ++ [' ', '|'])).splitOn '|'
      = (c :: cells).map (fun x => ' ' :: (x ++ [' '])) ++ [[]] := by
  induction cells with
  | nil =>
    intro c hc _
    rw [intercalate_single]
    have hshape : ' ' :: (c ++ [' ', '|']) = (' ' :: (c ++ [' '])) ++ '|' :: ([] : Str) := by
      simp
    rw [hshape]
    have hxs : ∀ x ∈ ' ' :: (c ++ [' ']), ¬(x == '|') = true := by
      intro x hx
      rcases List.mem_cons.mp hx with rfl | hx2
      · decide
      rcases List.mem_append.mp hx2 with hx3 | hx3
      · simp only [beq_iff_eq]
        intro heq
        exact hc (heq ▸ hx3)
      · rcases List.mem_cons.mp hx3 with rfl | hx4
        · decide
        · exact absurd hx4 (List.not_mem_nil _)
    simp only [List.splitOn]
    rw [List.splitOnP_first _ _ hxs '|' (by decide)]
    rfl
  | cons c2 cells2 ih =>
    intro c hc hcells
    rw [intercalate_cons_cons]
    have hshape : ' ' :: ((c ++ str " | " ++ List.intercalate (str " | ") (c2 :: cells2)) ++ [' ', '|'])
        = (' ' :: (c ++ [' ']))
          ++ '|' :: (' ' :: (List.intercalate (str " | ") (c2 :: cells2) ++ [' ', '|'])) := by
      simp [str]
    rw [hshape]
    have hxs : ∀ x ∈ ' ' :: (c ++ [' ']), ¬(x == '|') = true := by
      intro x hx
      rcases List.mem_cons.mp hx with rfl | hx2
      · decide
      rcases List.mem_append.mp hx2 with hx3 | hx3
      · simp only [beq_iff_eq]
        intro heq
        exact hc (heq ▸ hx3)
      · rcases List.mem_cons.mp hx3 with rfl | hx4
        · decide
        · exact absurd hx4 (List.not_mem_nil _)
    simp only [List.splitOn] at ih ⊢
    rw [List.splitOnP_first _ _ hxs '|' (by decide)]
    rw [ih c2 (hcells c2 (List.mem_cons_self _ _))
      (fun x hx => hcells x (List.mem_cons_of_mem _ hx))]
    rfl

/-- The rendered-mode line rebuild is a faithful normalization: parsing the
rebuilt line back into cells recovers exactly the cells that were joined,
provided each cell is trimmed, nonempty and pipe-free. -/
theorem lineCells_rebuild (cells : List Str)
    (h : ∀ c ∈ cells, jsTrim c = c ∧ c ≠ [] ∧ '|' ∉ c) :
    lineCells (str "| " ++ List.intercalate (str " | ") cells ++ str " |") = cells := by
  cases cells with
  | nil => decide
  | cons c cells' =>
    have hshape : str "| " ++ List.intercalate (str " | ") (c :: cells') ++ str " |"
        = '|' :: (' ' :: (List.intercalate (str " | ") (c :: cells') ++ [' ', '|'])) := by
      simp [str]
    unfold lineCells
    rw [hshape]
    have hsplit : ('|' :: (' ' :: (List.intercalate (str " | ") (c :: cells')
          ++ [' ', '|']))).splitOn '|'
        = [] :: ((c :: cells').map (fun x => ' ' :: (x ++ [' '])) ++ [[]]) := by
      have h0 : ('|' :: (' ' :: (List.intercalate (str " | ") (c :: cells') ++ [' ', '|'])))
          = ([] : Str) ++ '|' :: (' ' :: (List.intercalate (str " | ") (c :: cells')
              ++ [' ', '|'])) := rfl
      rw [h0]
      simp only [List.splitOn]
      rw [List.splitOnP_first _ _ (fun x hx => absurd hx (List.not_mem_nil _)) '|' (by decide)]
      have h4 := splitOn_pipe_aux cells' c (h c (List.mem_cons_self _ _)).2.2
        (fun x hx => (h x (List.mem_cons_of_mem _ hx)).2.2)
      simp only [List.splitOn] at h4
      rw [h4]
    rw [hsplit]
    have hmap : (((c :: cells').map (fun x => ' ' :: (x ++ [' ']))).map jsTrim) = c :: cells' := by
      rw [List.map_map]
      have hcg : ∀ x ∈ c :: cells', (jsTrim ∘ fun x => ' ' :: (x ++ [' '])) x = id x := by
        intro x hx
        exact jsTrim_pad x (h x hx).1 (h x hx).2.1
      rw [List.map_congr_left hcg, List.map_id]
    rw [List.map_cons, List.map_append, hmap]
    rw [show jsTrim [] = ([] : Str) from rfl]
    rw [show (List.map jsTrim [([] : Str)]) = [([] : Str)] from rfl]
    have hne : ∀ x ∈ c :: cells', (!x.isEmpty) = true := by
      intro x hx
      simp [List.isEmpty_iff, (h x hx).2.1]
    rw [List.filter_cons, if_neg (by decide)]
    rw [List.filter_append, List.filter_eq_self.mpr hne]
    rw [show List.filter (fun c => !List.isEmpty c) [([] : Str)] = [] from by decide]
    simp

/-- Claim C6, counterexample: the round trip is not byte-identical as
claimed. In live mode, a token written as uppercase X comes back lowercase.
In rendered mode, with another cell of the same line holding an identical
token, toggling the second cell off succeeds but toggling it back on
replaces the first occurrence on the line, in the first cell, so the written
document differs from the original even though no whitespace normalization
and no uppercase token is involved. -/
theorem C6_counterexample :
    (livePatch (livePatch (str "[X]") 0 false) 0 true = str "[x]"
      ∧ str "[x]" ≠ str "[X]")
    ∧ (renderedToggle false ⟨str "[ ] alpha [x] beta", 1, 0, str "[x]"⟩
          (str "| [ ] alpha | [x] beta |") = some (str "| [ ] alpha | [ ] beta |")
      ∧ renderedToggle true ⟨str "[ ] alpha [ ] beta", 1, 0, str "[ ]"⟩
          (str "| [ ] alpha | [ ] beta |") = some (str "| [x] alpha | [ ] beta |")
      ∧ str "| [x] alpha | [ ] beta |" ≠ str "| [ ] alpha | [x] beta |") := by decide

/-- Claim C6, amended: the round trip from checked to unchecked and back is
byte-identical for the live-mode single-character patch on a lowercase
token (an uppercase X token comes back lowercase); in rendered mode it is
byte-identical on the simple-replace path when the clicked token is the
first bracket on its line, and on the rebuild path the cell is restored
byte for byte at the exact match offset, while the line itself is rewritten
in the normalized form pipe, space, cells joined by space-pipe-space,
space, pipe, a normalization that recovers exactly the same cells (the
cells of the compact line a-pipe-b rebuild to the padded form); when an
identical token occurs earlier on the line, the simple-replace path
restores the earlier occurrence instead, as the counterexample shows. -/
theorem C6_roundTrip :
    (∀ u v : Str,
      livePatch (livePatch (u ++ '[' :: 'x' :: ']' :: v) u.length false) u.length true
        = u ++ '[' :: 'x' :: ']' :: v)
    ∧ (∀ u v : Str, '[' ∉ u →
      replaceFirst (str "[ ]") (str "[x]")
          (replaceFirst (str "[x]") (str "[ ]") (u ++ str "[x]" ++ v))
        = u ++ str "[x]" ++ v)
    ∧ (∀ u v : Str,
      (u ++ str "[x]" ++ v).take u.length ++ str "[ ]"
          ++ (u ++ str "[x]" ++ v).drop (u.length + 3) = u ++ str "[ ]" ++ v
      ∧ (u ++ str "[ ]" ++ v).take u.length ++ str "[x]"
          ++ (u ++ str "[ ]" ++ v).drop (u.length + 3) = u ++ str "[x]" ++ v)
    ∧ (∀ cells : List Str, (∀ c ∈ cells, jsTrim c = c ∧ c ≠ [] ∧ '|' ∉ c) →
      lineCells (str "| " ++ List.intercalate (str " | ") cells ++ str " |") = cells)
    ∧ str "| " ++ List.intercalate (str " | ") (lineCells (str "a|b")) ++ str " |"
        = str "| a | b |" := by
  refine ⟨livePatch_roundTrip, ?_, ?_, lineCells_rebuild, by decide⟩
  · intro u v hu
    have h1 := replaceFirst_at_marked '[' ['x', ']'] (str "[ ]") u v hu
    have h2 := replaceFirst_at_marked '[' [' ', ']'] (str "[x]") u v hu
    rw [show ('[' :: ['x', ']'] : Str) = str "[x]" from rfl] at h1
    rw [show ('[' :: [' ', ']'] : Str) = str "[ ]" from rfl] at h2
    rw [h1, h2]
  · intro u v
    exact ⟨splice_at_token u (str "[x]") (str "[ ]") v rfl,
      splice_at_token u (str "[ ]") (str "[x]") v rfl⟩

/-- Witness for the amended C6: the rendered simple-replace round trip on a
concrete cell text and the rebuild normalization on concrete cells. -/
theorem C6_roundTrip_witness :
    replaceFirst (str "[ ]") (str "[x]")
        (replaceFirst (str "[x]") (str "[ ]") (str "| " ++ str "[x]" ++ str " beta |"))
      = str "| " ++ str "[x]" ++ str " beta |"
    ∧ lineCells (str "| " ++ List.intercalate (str " | ") [str "a", str "b"] ++ str " |")
      = [str "a", str "b"] :=
  ⟨C6_roundTrip.2.1 (str "| ") (str " beta |") (by decide),
   C6_roundTrip.2.2.2.1 [str "a", str "b"] (by decide)⟩

/-- Claim C7: the live locator skips a checkbox match exactly when the cursor
lies strictly between its start and end offsets; on the buffer consisting of
one checked token, cursor at position 1 or 2 yields no control, cursor at
position 0 or 3 yields exactly one control covering offsets 0 to 3. -/
theorem C7_cursorExclusion :
    (∀ (content : Str) (offset cursorPos : Nat),
        controlsInContent content offset cursorPos
          = ((checkboxMatches content).filter (fun m =>
              !decide (offset + m.1 < cursorPos ∧ cursorPos < offset + m.1 + m.2.length))).map
              (fun m => (offset + m.1, offset + m.1 + m.2.length, isCheckedTok m.2)))
    ∧ controlsInContent (str "[x]") 0 1 = []
    ∧ controlsInContent (str "[x]") 0 2 = []
    ∧ controlsInContent (str "[x]") 0 0 = [(0, 3, true)]
    ∧ controlsInContent (str "[x]") 0 3 = [(0, 3, true)] := by
  refine ⟨?_, by decide, by decide, by decide, by decide⟩
  intro content offset cursorPos
  exact filterMap_ite_none _ _ _

/-- Dropping the length of the matched takeWhile run is dropWhile. -/
theorem drop_length_takeWhile (p : Char → Bool) (l : Str) :
    l.drop (l.takeWhile p).length = l.dropWhile p := by
  calc l.drop (l.takeWhile p).length
      = (l.takeWhile p ++ l.dropWhile p).drop (l.takeWhile p).length := by
        rw [List.takeWhile_append_dropWhile]
    _ = l.dropWhile p := List.drop_left _ _

/-- Texts not opening with a brace never match the annotation pattern. -/
theorem parseAnnot_none (c : Char) (rest : Str) (hc : c ≠ '{') :
    parseAnnot (c :: rest) = none := by
  rw [parseAnnot.eq_def]
  split
  · rename_i rest2 heq
    obtain ⟨h1, _⟩ := List.cons.inj heq
    exact absurd h1 hc
  · rfl

/-- A successful annotation match consumes exactly a substring of the form
brace, digits, brace, brace, digits, brace at the head of the text. -/
theorem parseAnnot_decomp (s r : Str) (h : parseAnnot s = some r) :
    ∃ ds ds2 : Str, s = '{' :: (ds ++ '}' :: '{' :: (ds2 ++ '}' :: r))
      ∧ ds ≠ [] ∧ ds2 ≠ [] ∧ ds.all Char.isDigit = true ∧ ds2.all Char.isDigit = true := by
  rw [parseAnnot.eq_def] at h
  split at h
  case _ rest =>
    split_ifs at h with hds
    split at h
    case _ rest2 heq =>
      split_ifs at h with hds2
      split at h
      case _ rest3 heq2 =>
        refine ⟨rest.takeWhile Char.isDigit, rest2.takeWhile Char.isDigit, ?_, ?_, ?_, ?_, ?_⟩
        · have hrest : rest = rest.takeWhile Char.isDigit ++ ('}' :: '{' :: rest2) := by
            conv_lhs => rw [← List.takeWhile_append_dropWhile Char.isDigit rest]
            rw [← drop_length_takeWhile Char.isDigit rest, heq]
          have hrest2 : rest2 = rest2.takeWhile Char.isDigit ++ ('}' :: rest3) := by
            conv_lhs => rw [← List.takeWhile_append_dropWhile Char.isDigit rest2]
            rw [← drop_length_takeWhile Char.isDigit rest2, heq2]
          obtain rfl : rest3 = r := by exact Option.some.inj h
          rw [← hrest2, ← hrest]
        · exact List.isEmpty_eq_false.mp (Bool.not_eq_true _ ▸ hds)
        · exact List.isEmpty_eq_false.mp (Bool.not_eq_true _ ▸ hds2)
        · exact List.all_eq_true.mpr (fun x hx => List.mem_takeWhile_imp hx)
        · exact List.all_eq_true.mpr (fun x hx => List.mem_takeWhile_imp hx)
      case _ => exact absurd h (by simp)
    case _ => exact absurd h (by simp)
  case _ => exact absurd h (by simp)

/-- An annotation match consumes at least one character. -/
theorem parseAnnot_length (s r : Str) (h : parseAnnot s = some r) :
    r.length < s.length := by
  obtain ⟨ds, ds2, hshape, -, -, -, -⟩ := parseAnnot_decomp s r h
  rw [hshape]
  simp [List.length_append]
  omega

/-- The fueled scan does not depend on the fuel once it covers the length. -/
theorem removeAnnotsFuel_congr (fuel1 : Nat) :
    ∀ (fuel2 : Nat) (s : Str), s.length ≤ fuel1 → s.length ≤ fuel2 →
      removeAnnotsFuel fuel1 s = removeAnnotsFuel fuel2 s := by
  induction fuel1 with
  | zero =>
    intro fuel2 s h1 h2
    have hs : s = [] := List.length_eq_zero.mp (Nat.le_zero.mp h1)
    subst hs
    cases fuel2 <;> rfl
  | succ fuel1 ih =>
    intro fuel2 s h1 h2
    cases s with
    | nil => cases fuel2 <;> rfl
    | cons c rest =>
      cases fuel2 with
      | zero => simp at h2
      | succ fuel2 =>
        simp only [removeAnnotsFuel]
        cases hp : parseAnnot (c :: rest) with
        | some r =>
          have hr := parseAnnot_length _ _ hp
          simp only [List.length_cons] at h1 h2 hr
          exact ih fuel2 r (by omega) (by omega)
        | none =>
          simp only [List.length_cons] at h1 h2
          rw [ih fuel2 rest (by omega) (by omega)]

/-- A byte that does not start an annotation match is kept unchanged. -/
theorem removeAnnots_nomatch (c : Char) (rest : Str) (h : parseAnnot (c :: rest) = none) :
    removeAnnots (c :: rest) = c :: removeAnnots rest := by
  unfold removeAnnots
  simp only [List.length_cons, removeAnnotsFuel, h]

/-- A matched annotation at the head is deleted whole and nothing else. -/
theorem removeAnnots_match (s r : Str) (h : parseAnnot s = some r) :
    removeAnnots s = removeAnnots r := by
  cases s with
  | nil => rw [show parseAnnot [] = none from rfl] at h; exact Option.noConfusion h
  | cons c rest =>
    have hlen := parseAnnot_length _ _ h
    simp only [List.length_cons] at hlen
    unfold removeAnnots
    simp only [List.length_cons, removeAnnotsFuel, h]
    exact removeAnnotsFuel_congr rest.length r.length r (by omega) le_rfl

/-- The cleaned text only deletes characters, in order: it is a sublist
(length-bounded induction form). -/
theorem removeAnnots_sublist_aux (n : Nat) :
    ∀ s : Str, s.length ≤ n → (removeAnnots s).Sublist s := by
  induction n with
  | zero =>
    intro s h
    have hs : s = [] := List.length_eq_zero.mp (Nat.le_zero.mp h)
    subst hs
    exact List.Sublist.refl _
  | succ n ih =>
    intro s h
    cases s with
    | nil => exact List.Sublist.refl _
    | cons c rest =>
      cases hp : parseAnnot (c :: rest) with
      | some r =>
        obtain ⟨ds, ds2, hshape, -, -, -, -⟩ := parseAnnot_decomp _ _ hp
        have hsub : r.Sublist (c :: rest) := by
          have hm : c :: rest = ('{' :: ds ++ '}' :: '{' :: ds2 ++ ['}']) ++ r := by
            rw [hshape]; simp
          rw [hm]
          exact List.sublist_append_right _ _
        have hr := parseAnnot_length _ _ hp
        simp only [List.length_cons] at h hr
        exact (removeAnnots_match _ _ hp ▸ ih r (by omega)).trans hsub
      | none =>
        rw [removeAnnots_nomatch _ _ hp]
        simp only [List.length_cons] at h
        exact (ih rest (by omega)).cons₂ c

/-- The cleaned text is the original with only deletions, in order. -/
theorem removeAnnots_sublist (s : Str) : (removeAnnots s).Sublist s :=
  removeAnnots_sublist_aux s.length s le_rfl

/-- A checkbox state character is never an opening brace. -/
theorem isStateChar_ne_lbrace (sc : Char) (hsc : isStateChar sc = true) : sc ≠ '{' := by
  simp only [isStateChar, Bool.or_eq_true, beq_iff_eq] at hsc
  rcases hsc with (rfl | rfl) | rfl <;> decide

/-- The cleanup keeps a checkbox token at the head of the text byte for
byte. -/
theorem removeAnnots_token_head (sc : Char) (hsc : isStateChar sc = true) (b : Str) :
    removeAnnots ('[' :: sc :: ']' :: b) = '[' :: sc :: ']' :: removeAnnots b := by
  rw [removeAnnots_nomatch _ _ (parseAnnot_none _ _ (by decide)),
    removeAnnots_nomatch _ _ (parseAnnot_none _ _ (isStateChar_ne_lbrace sc hsc)),
    removeAnnots_nomatch _ _ (parseAnnot_none _ _ (by decide))]

/-- Every checkbox token of the document survives the cleanup
(length-bounded induction form). -/
theorem removeAnnots_keeps_token_aux (sc : Char) (hsc : isStateChar sc = true) (n : Nat) :
    ∀ a : Str, a.length ≤ n → ∀ b : Str,
      ∃ a2 b2 : Str, removeAnnots (a ++ '[' :: sc :: ']' :: b) = a2 ++ '[' :: sc :: ']' :: b2 := by
  induction n with
  | zero =>
    intro a ha b
    have hs : a = [] := List.length_eq_zero.mp (Nat.le_zero.mp ha)
    subst hs
    exact ⟨[], removeAnnots b, by simpa using removeAnnots_token_head sc hsc b⟩
  | succ n ih =>
    intro a ha b
    cases a with
    | nil => exact ⟨[], removeAnnots b, by simpa using removeAnnots_token_head sc hsc b⟩
    | cons c a' =>
      simp only [List.cons_append]
      simp only [List.length_cons] at ha
      cases hpa : parseAnnot (c :: (a' ++ '[' :: sc :: ']' :: b)) with
      | none =>
        rw [removeAnnots_nomatch _ _ hpa]
        obtain ⟨a2, b2, hr⟩ := ih a' (by omega) b
        exact ⟨c :: a2, b2, by rw [hr]; rfl⟩
      | some r =>
        obtain ⟨ds, ds2, hshape, -, -, hd1, hd2⟩ := parseAnnot_decomp _ _ hpa
        obtain ⟨-, heq⟩ := List.cons.inj hshape
        set m : Str := ds ++ '}' :: '{' :: (ds2 ++ ['}']) with hmdef
        have hm : a' ++ '[' :: sc :: ']' :: b = m ++ r := by
          rw [heq, hmdef]; simp
        have h_not_in : '[' ∉ m := by
          intro hmem
          rw [hmdef] at hmem
          rcases List.mem_append.mp hmem with hd | htl
          · exact absurd (List.all_eq_true.mp hd1 _ hd) (by decide)
          rcases List.mem_cons.mp htl with h1 | htl
          · exact absurd h1 (by decide)
          rcases List.mem_cons.mp htl with h1 | htl
          · exact absurd h1 (by decide)
          rcases List.mem_append.mp htl with hd | h1
          · exact absurd (List.all_eq_true.mp hd2 _ hd) (by decide)
          rcases List.mem_cons.mp h1 with h1 | h1
          · exact absurd h1 (by decide)
          · exact absurd h1 (List.not_mem_nil _)
        have hlen : m.length ≤ a'.length := by
          by_contra hlt
          push_neg at hlt
          have h1 : (a' ++ '[' :: sc :: ']' :: b)[a'.length]? = some '[' := by
            rw [List.getElem?_append_right le_rfl]
            simp
          rw [hm] at h1
          rw [List.getElem?_append, if_pos hlt] at h1
          obtain ⟨hl, he⟩ := List.getElem?_eq_some.mp h1
          exact h_not_in (he ▸ List.getElem_mem hl)
        have hdrop : a'.drop m.length ++ '[' :: sc :: ']' :: b = r := by
          have h3 := congrArg (List.drop m.length) hm
          rw [List.drop_append_eq_append_drop, List.drop_left,
            Nat.sub_eq_zero_of_le hlen, List.drop_zero] at h3
          simpa using h3
        obtain ⟨a2, b2, hr2⟩ := ih (a'.drop m.length) (by
          have := List.length_drop m.length a'
          omega) b
        refine ⟨a2, b2, ?_⟩
        rw [removeAnnots_match _ _ hpa, ← hdrop, hr2]

/-- Every checkbox token of the document survives the cleanup. -/
theorem removeAnnots_keeps_token (a b : Str) (sc : Char) (hsc : isStateChar sc = true) :
    ∃ a2 b2 : Str, removeAnnots (a ++ '[' :: sc :: ']' :: b) = a2 ++ '[' :: sc :: ']' :: b2 :=
  removeAnnots_keeps_token_aux sc hsc a.length a le_rfl b

/-- Claim C8: the cleanup removes from the document exactly the substrings
matching two adjacent brace-delimited integers, scanning left to right, and
changes no other bytes: at every position either an annotation match starts
and precisely that brace-digits-brace-brace-digits-brace substring is
deleted, or the byte is kept; the cleaned text is the original with only
those deletions (a sublist), every checkbox token of the document survives,
the example document loses exactly its annotation, and a document with no
match is not rewritten at all. -/
theorem C8_annotationCleanup :
    (∀ s r : Str, parseAnnot s = some r →
      (∃ ds ds2 : Str, s = '{' :: (ds ++ '}' :: '{' :: (ds2 ++ '}' :: r))
        ∧ ds ≠ [] ∧ ds2 ≠ [] ∧ ds.all Char.isDigit = true ∧ ds2.all Char.isDigit = true)
      ∧ removeAnnots s = removeAnnots r)
    ∧ (∀ (c : Char) (rest : Str), parseAnnot (c :: rest) = none →
      removeAnnots (c :: rest) = c :: removeAnnots rest)
    ∧ (∀ s : Str, (removeAnnots s).Sublist s)
    ∧ (∀ (a b : Str) (sc : Char), isStateChar sc = true →
      ∃ a2 b2 : Str, removeAnnots (a ++ '[' :: sc :: ']' :: b) = a2 ++ '[' :: sc :: ']' :: b2)
    ∧ removeAnnots (str "[x]{4}{11} done") = str "[x] done"
    ∧ cleanupAnnotations (str "[x]{4}{11} done") = some (str "[x] done")
    ∧ (∀ content : Str, hasAnnot content = false → cleanupAnnotations content = none) := by
  refine ⟨fun s r h => ⟨parseAnnot_decomp s r h, removeAnnots_match s r h⟩,
    removeAnnots_nomatch, removeAnnots_sublist, removeAnnots_keeps_token,
    by decide, by decide, ?_⟩
  intro content h
  unfold cleanupAnnotations removeAnnots
  rw [removeAnnotsFuel_of_not_hasAnnot _ _ h]
  simp

/-- Witness for C8: a concrete match step, keep step, token survival and
pattern-free no-op. -/
theorem C8_annotationCleanup_witness :
    removeAnnots (str "{4}{11}[x] done") = removeAnnots (str "[x] done")
    ∧ removeAnnots ('a' :: str "{1}{2}") = 'a' :: removeAnnots (str "{1}{2}")
    ∧ (∃ a2 b2 : Str,
        removeAnnots (str "ab" ++ '[' :: 'x' :: ']' :: str "{4}{11}")
          = a2 ++ '[' :: 'x' :: ']' :: b2)
    ∧ cleanupAnnotations (str "[x] done") = none :=
  ⟨(C8_annotationCleanup.1 (str "{4}{11}[x] done") (str "[x] done") (by decide)).2,
   C8_annotationCleanup.2.1 'a' (str "{1}{2}") (by decide),
   C8_annotationCleanup.2.2.2.1 (str "ab") (str "{4}{11}") 'x' (by decide),
   C8_annotationCleanup.2.2.2.2.2.2 (str "[x] done") (by decide)⟩

/-- Claim C9: every toggle write uses only the lowercase state characters:
the live patch splices exactly one character, lowercase x or space, and every
rendered-mode replacement splices the token for the new state, which is always
the lowercase checked token or the unchecked token; in particular a clicked
uppercase token is rewritten lowercase. -/
theorem C9_lowercaseWrites :
    (∀ (doc : Str) (start : Nat) (checked : Bool), ∃ c,
        livePatch doc start checked = doc.take (start + 1) ++ [c] ++ doc.drop (start + 2)
        ∧ (c = 'x' ∨ c = ' '))
    ∧ (∀ checked, newCheckboxText checked = str "[x]" ∨ newCheckboxText checked = str "[ ]")
    ∧ livePatch (str "[X]") 0 true = str "[x]" := by
  refine ⟨?_, ?_, by decide⟩
  · intro doc start checked
    exact ⟨if checked then 'x' else ' ', rfl, by cases checked <;> simp⟩
  · intro checked
    cases checked <;> simp [newCheckboxText]

/-- Replacing an absent pattern is the identity. -/
theorem replaceFirst_eq_self_of_not_contains (pat repl : Str) (s : Str)
    (h : containsStr s pat = false) : replaceFirst pat repl s = s := by
  induction s with
  | nil =>
    simp only [containsStr] at h
    cases pat with
    | nil => simp at h
    | cons p ps => rfl
  | cons c rest ih =>
    simp only [containsStr, Bool.or_eq_false_iff] at h
    obtain ⟨h1, h2⟩ := h
    simp [replaceFirst, h1, ih h2]

/-- Replacing a present pattern by a different replacement changes the text. -/
theorem replaceFirst_ne_self (pat repl : Str) (hne : pat ≠ repl) (s : Str)
    (h : containsStr s pat = true) : replaceFirst pat repl s ≠ s := by
  induction s with
  | nil =>
    simp only [containsStr, List.isEmpty_iff] at h
    subst h
    have hr : replaceFirst [] repl [] = repl := by simp [replaceFirst, List.isPrefixOf]
    rw [hr]
    intro hre
    exact hne hre.symm
  | cons c rest ih =>
    by_cases hp : pat.isPrefixOf (c :: rest)
    · have hpre : pat <+: (c :: rest) := List.isPrefixOf_iff_prefix.mp hp
      obtain ⟨t, ht⟩ := hpre
      simp only [replaceFirst, hp, if_true]
      rw [← ht, List.drop_left]
      intro heq
      exact hne (List.append_cancel_right heq.symm)
    · simp only [containsStr, List.isPrefixOf] at h
      rw [Bool.or_eq_true] at h
      rcases h with h | h
      · exact absurd (by simpa [List.isPrefixOf] using h) hp
      · simp only [replaceFirst, hp, if_false]
        intro heq
        exact ih h (List.cons.inj heq).2

/-- With an empty candidate list the handler takes the global fallback path. -/
theorem renderedToggle_noTarget (checked : Bool) (fp : Fingerprint) (content : Str)
    (hpm : potentialMatchesOf (keyWordsOf fp.rowText) fp.cellPosition fp.originalCheckbox
        (content.splitOn '\n') = []) :
    renderedToggle checked fp content =
      (if replaceFirst fp.originalCheckbox (newCheckboxText checked) content = content
       then none
       else some (replaceFirst fp.originalCheckbox (newCheckboxText checked) content)) := by
  unfold renderedToggle selectTarget
  simp [hpm]

/-- Behavior of the global fallback: one write of the first-occurrence
replacement when the token occurs, no write when it does not. -/
theorem renderedToggle_fallback_behavior (checked : Bool) (fp : Fingerprint) (content : Str)
    (hpm : potentialMatchesOf (keyWordsOf fp.rowText) fp.cellPosition fp.originalCheckbox
        (content.splitOn '\n') = [])
    (hne : fp.originalCheckbox ≠ newCheckboxText checked) :
    (containsStr content fp.originalCheckbox = true →
      renderedToggle checked fp content
        = some (replaceFirst fp.originalCheckbox (newCheckboxText checked) content))
    ∧ (containsStr content fp.originalCheckbox = false →
      renderedToggle checked fp content = none) := by
  rw [renderedToggle_noTarget checked fp content hpm]
  constructor
  · intro hc
    rw [if_neg (replaceFirst_ne_self _ _ hne content hc)]
  · intro hc
    rw [if_pos (replaceFirst_eq_self_of_not_contains _ _ content hc)]

/-- A toggle writes a token different from the clicked token: the new state
is the negation of the state the clicked token denotes. -/
theorem newTok_ne_original (checked : Bool) (tok : Str)
    (htok : tok = str "[ ]" ∨ tok = str "[x]" ∨ tok = str "[X]")
    (hch : checked = !isCheckedTok tok) : tok ≠ newCheckboxText checked := by
  rcases htok with h | h | h <;> subst h <;> revert hch <;> revert checked <;> decide

/-- With an empty key-word list no candidate is ever produced. -/
theorem potentialMatchesOf_nil_keyWords (cellPosition : Nat) (tok : Str) (lines : List Str) :
    potentialMatchesOf [] cellPosition tok lines = [] := by
  unfold potentialMatchesOf
  rw [List.filterMap_eq_nil_iff]
  intro p hp
  by_cases h1 : containsStr p.2 (str "|") && containsStr p.2 tok
  · simp [candidateAt, h1, matchedWordsOf]
  · simp [candidateAt, h1]

/-- The code filter for key words rejects every word that is short, a literal
token or purely numeric. -/
theorem keyWordsOf_eq_nil (rowText : Str)
    (hkw : ∀ w ∈ (cleanRowText rowText).splitOn ' ',
        w.length ≤ 2 ∨ w = str "[x]" ∨ w = str "[ ]" ∨ isNumericWord w = true) :
    keyWordsOf rowText = [] := by
  unfold keyWordsOf
  rw [List.filter_eq_nil_iff]
  intro w hw hcontra
  simp only [Bool.and_eq_true, decide_eq_true_eq, Bool.not_eq_true',
    Bool.or_eq_false_iff, beq_eq_false_iff_ne, ne_eq] at hcontra
  obtain ⟨⟨h1, h2, h3⟩, h4⟩ := hcontra
  rcases hkw w hw with h | h | h | h
  · omega
  · exact h2 h
  · exact h3 h
  · rw [h] at h4; exact absurd h4 (by simp)

/-- Claim C5: when no candidate line survives the scoring and cell filters,
the handler replaces the first occurrence of the original token in the whole
document and performs exactly one write; when the document contains no
occurrence at all, no write occurs. -/
theorem C5_globalFallback (checked : Bool) (fp : Fingerprint) (content : Str)
    (hpm : potentialMatchesOf (keyWordsOf fp.rowText) fp.cellPosition fp.originalCheckbox
        (content.splitOn '\n') = [])
    (htok : fp.originalCheckbox = str "[ ]" ∨ fp.originalCheckbox = str "[x]"
        ∨ fp.originalCheckbox = str "[X]")
    (hch : checked = !isCheckedTok fp.originalCheckbox) :
    (containsStr content fp.originalCheckbox = true →
      renderedToggle checked fp content
        = some (replaceFirst fp.originalCheckbox (newCheckboxText checked) content))
    ∧ (containsStr content fp.originalCheckbox = false →
      renderedToggle checked fp content = none) :=
  renderedToggle_fallback_behavior checked fp content hpm
    (newTok_ne_original checked fp.originalCheckbox htok hch)

/-- Witness for C5 on a document with no table line. -/
theorem C5_globalFallback_witness :
    renderedToggle false ⟨[], 0, 0, str "[x]"⟩ (str "[x] hi") = some (str "[ ] hi") := by
  have h := (C5_globalFallback false ⟨[], 0, 0, str "[x]"⟩ (str "[x] hi") (by decide)
      (Or.inr (Or.inl rfl)) (by decide)).1 (by decide)
  rw [h]; decide

/-- Claim C10: a fingerprint whose cleaned row text has only short, literal
token, or purely numeric words yields an empty key-word set, so no candidate
line is ever selected and the click takes the document-wide fallback path,
writing nothing when the token is absent. -/
theorem C10_emptyKeyWordsFallback (checked : Bool) (fp : Fingerprint) (content : Str)
    (hkw : ∀ w ∈ (cleanRowText fp.rowText).splitOn ' ',
        w.length ≤ 2 ∨ w = str "[x]" ∨ w = str "[ ]" ∨ isNumericWord w = true)
    (htok : fp.originalCheckbox = str "[ ]" ∨ fp.originalCheckbox = str "[x]"
        ∨ fp.originalCheckbox = str "[X]")
    (hch : checked = !isCheckedTok fp.originalCheckbox) :
    potentialMatchesOf (keyWordsOf fp.rowText) fp.cellPosition fp.originalCheckbox
        (content.splitOn '\n') = []
    ∧ (containsStr content fp.originalCheckbox = true →
      renderedToggle checked fp content
        = some (replaceFirst fp.originalCheckbox (newCheckboxText checked) content))
    ∧ (containsStr content fp.originalCheckbox = false →
      renderedToggle checked fp content = none) := by
  have hpm : potentialMatchesOf (keyWordsOf fp.rowText) fp.cellPosition fp.originalCheckbox
      (content.splitOn '\n') = [] := by
    rw [keyWordsOf_eq_nil fp.rowText hkw]
    exact potentialMatchesOf_nil_keyWords fp.cellPosition fp.originalCheckbox
      (content.splitOn '\n')
  exact ⟨hpm, renderedToggle_fallback_behavior checked fp content hpm
    (newTok_ne_original checked fp.originalCheckbox htok hch)⟩

/-- Witness for C10 on a row text with only short, token, or numeric words. -/
theorem C10_emptyKeyWordsFallback_witness :
    renderedToggle false ⟨str "[x] 12 ab", 0, 0, str "[x]"⟩ (str "| [x] cat |")
      = some (str "| [ ] cat |") := by
  have h := (C10_emptyKeyWordsFallback false ⟨str "[x] 12 ab", 0, 0, str "[x]"⟩
      (str "| [x] cat |") (by decide) (Or.inr (Or.inl rfl)) (by decide)).2.1 (by decide)
  rw [h]; decide

/-- Claim C1, counterexample: with two cells holding the same token text on
the selected line and the click in the second cell, whose cell text has
exactly one checkbox match, the simple substring replace on the full line
changes the token of the first cell, while the clicked cell keeps its checked
token: the written document is not the one with the clicked cell toggled. -/
theorem C1_counterexample :
    renderedToggle false ⟨str "[x] alpha [x] beta", 1, 0, str "[x]"⟩
        (str "| [x] alpha | [x] beta |")
      = some (str "| [ ] alpha | [x] beta |")
    ∧ (lineCells (str "| [ ] alpha | [x] beta |")).getD 1 [] = str "[x] beta"
    ∧ str "| [ ] alpha | [x] beta |" ≠ str "| [x] alpha | [ ] beta |" := by decide

/-- Claim C1, amended: when the cell at the fingerprint cell index contains
exactly one checkbox match, the handler performs a simple substring replace
of the first occurrence of the original token on the full target line
(writing the line back only when it changed); the replaced occurrence is the
first on the line, which need not lie in the clicked cell when an earlier
cell contains the same token text. -/
theorem C1_singleMatch (newTok tok : Str) (cellPosition offset : Nat) (targetLine : Str)
    (hcp : cellPosition < (lineCells targetLine).length)
    (hone : (checkboxMatches ((lineCells targetLine).getD cellPosition [])).length = 1) :
    toggleTargetLine newTok tok cellPosition offset targetLine =
      (if replaceFirst tok newTok targetLine = targetLine then none
       else some (replaceFirst tok newTok targetLine)) := by
  have hget : (lineCells targetLine).getD cellPosition [] = (lineCells targetLine)[cellPosition] :=
    List.getD_eq_getElem _ _ hcp
  rw [hget] at hone
  unfold toggleTargetLine
  simp [hcp, hone]

/-- Witness for the amended C1 on a one-cell line. -/
theorem C1_singleMatch_witness :
    toggleTargetLine (str "[ ]") (str "[x]") 0 0 (str "| [x] alpha |")
      = some (str "| [ ] alpha |") := by
  rw [C1_singleMatch (str "[ ]") (str "[x]") 0 0 (str "| [x] alpha |")
    (by decide) (by decide)]
  decide

/-- Claim C3: with more than one checkbox match in the target cell, the
handler replaces the first match within offset tolerance 2 that textually
equals the original token, rebuilding the cell as prefix, new token, suffix
at exactly that offset and the line from its cells; when no match satisfies
both conditions it falls back to a plain substring replace of the first
occurrence of the original token in the target line. -/
theorem C3_multiMatch (newTok tok : Str) (cellPosition offset : Nat) (targetLine : Str)
    (hcp : cellPosition < (lineCells targetLine).length)
    (hm : 1 < (checkboxMatches ((lineCells targetLine).getD cellPosition [])).length) :
    (∀ m, (checkboxMatches ((lineCells targetLine).getD cellPosition [])).find?
        (fun m => decide (((m.1 : Int) - (offset : Int)).natAbs ≤ 2) && m.2 == tok) = some m →
      ((((m.1 : Int) - (offset : Int)).natAbs ≤ 2 ∧ m.2 = tok)
      ∧ toggleTargetLine newTok tok cellPosition offset targetLine =
          some (str "| " ++ List.intercalate (str " | ")
            ((lineCells targetLine).set cellPosition
              (((lineCells targetLine).getD cellPosition []).take m.1 ++ newTok ++
               ((lineCells targetLine).getD cellPosition []).drop (m.1 + 3))) ++ str " |")))
    ∧ ((checkboxMatches ((lineCells targetLine).getD cellPosition [])).find?
        (fun m => decide (((m.1 : Int) - (offset : Int)).natAbs ≤ 2) && m.2 == tok) = none →
      toggleTargetLine newTok tok cellPosition offset targetLine =
        (if replaceFirst tok newTok targetLine = targetLine then none
         else some (replaceFirst tok newTok targetLine))) := by
  have hget : (lineCells targetLine).getD cellPosition [] = (lineCells targetLine)[cellPosition] :=
    List.getD_eq_getElem _ _ hcp
  rw [hget] at hm
  constructor
  · intro m hfind
    have hp := List.find?_some hfind
    simp only [Bool.and_eq_true, decide_eq_true_eq, beq_iff_eq] at hp
    rw [hget] at hfind
    refine ⟨hp, ?_⟩
    unfold toggleTargetLine
    simp [hcp, hget, hm, hfind]
  · intro hfind
    rw [hget] at hfind
    unfold toggleTargetLine
    simp [hcp, hget, hm, hfind]

/-- Witness for C3 on a cell with two checkbox matches and a fingerprint
offset at the second. -/
theorem C3_multiMatch_witness :
    toggleTargetLine (str "[ ]") (str "[x]") 0 9 (str "| [x] Milk [x] Bread |")
      = some (str "| [x] Milk [ ] Bread |") := by
  have h := (C3_multiMatch (str "[ ]") (str "[x]") 0 9 (str "| [x] Milk [x] Bread |")
      (by decide) (by decide)).1 (9, str "[x]") (by decide)
  rw [h.2]; decide

/-- Characterization of the per-line candidate test. -/
theorem candidateAt_eq_some_iff (keyWords : List Str) (cellPosition : Nat) (tok : Str)
    (i : Nat) (line : Str) (d : Candidate) :
    candidateAt keyWords cellPosition tok i line = some d ↔
      (containsStr line (str "|") = true ∧ containsStr line tok = true
       ∧ (matchedWordsOf keyWords line).length > 0
       ∧ cellPosition < (lineCells line).length
       ∧ containsStr ((lineCells line).getD cellPosition []) tok = true
       ∧ d = ⟨i, line, (matchedWordsOf keyWords line).length,
              matchedWordsOf keyWords line⟩) := by
  unfold candidateAt
  split_ifs with h1 h2 h3 h4
  · rw [Bool.and_eq_true] at h1
    constructor
    · intro h
      exact ⟨h1.1, h1.2, h2, h3, h4, (Option.some.inj h).symm⟩
    · intro h
      rw [h.2.2.2.2.2]
  · constructor
    · intro h; exact h.elim
    · intro h; exact absurd h.2.2.2.2.1 h4
  · constructor
    · intro h; exact h.elim
    · intro h; exact absurd h.2.2.2.1 h3
  · constructor
    · intro h; exact h.elim
    · intro h; exact absurd h.2.2.1 h2
  · rw [Bool.and_eq_true] at h1
    constructor
    · intro h; exact h.elim
    · intro h; exact absurd ⟨h.1, h.2.1⟩ h1

/-- Membership in the candidate list, in terms of the line at the index. -/
theorem mem_potentialMatchesOf (keyWords : List Str) (cellPosition : Nat) (tok : Str)
    (lines : List Str) (d : Candidate) :
    d ∈ potentialMatchesOf keyWords cellPosition tok lines ↔
      (d.lineIndex < lines.length ∧ lines.getD d.lineIndex [] = d.line
       ∧ containsStr d.line (str "|") = true ∧ containsStr d.line tok = true
       ∧ d.matchedWords = matchedWordsOf keyWords d.line
       ∧ d.matchScore = d.matchedWords.length ∧ 0 < d.matchScore
       ∧ cellPosition < (lineCells d.line).length
       ∧ containsStr ((lineCells d.line).getD cellPosition []) tok = true) := by
  unfold potentialMatchesOf
  rw [List.mem_filterMap]
  constructor
  · rintro ⟨⟨i, line⟩, hmem, hf⟩
    rw [List.mk_mem_enum_iff_getElem?] at hmem
    dsimp only at hf
    rw [candidateAt_eq_some_iff] at hf
    obtain ⟨hpipe, htok2, hscore, hcell, hcontain, hd⟩ := hf
    subst hd
    have hlt : i < lines.length := (List.getElem?_eq_some.mp hmem).1
    have hgd : lines.getD i [] = line := by
      rw [List.getD_eq_getElem?_getD, hmem, Option.getD_some]
    exact ⟨hlt, hgd, hpipe, htok2, rfl, rfl, hscore, hcell, hcontain⟩
  · rintro ⟨hlt, hgd, hpipe, htok2, hmw, hscore, hpos, hcell, hcontain⟩
    refine ⟨(d.lineIndex, d.line), ?_, ?_⟩
    · rw [List.mk_mem_enum_iff_getElem?, List.getElem?_eq_getElem hlt]
      rw [← List.getD_eq_getElem lines [] hlt, hgd]
    · dsimp only
      rw [candidateAt_eq_some_iff]
      refine ⟨hpipe, htok2, ?_, hcell, hcontain, ?_⟩
      · rw [← hmw, ← hscore]; exact hpos
      · cases d with
        | mk li ln ms mw => simp_all

/-- The selected candidate is a candidate and is least in the comparator
order among all candidates. -/
theorem selectTarget_some (keyWords : List Str) (cellPosition : Nat) (tok : Str)
    (lines : List Str) (c : Candidate)
    (hc : selectTarget keyWords cellPosition tok lines = some c) :
    c ∈ potentialMatchesOf keyWords cellPosition tok lines
    ∧ ∀ d ∈ potentialMatchesOf keyWords cellPosition tok lines, candLE c d := by
  unfold selectTarget at hc
  by_cases hpm : (potentialMatchesOf keyWords cellPosition tok lines).isEmpty
  · simp [hpm] at hc
  · simp only [hpm, if_false] at hc
    have hperm := List.perm_insertionSort candLE
      (potentialMatchesOf keyWords cellPosition tok lines)
    have hsort := List.sorted_insertionSort candLE
      (potentialMatchesOf keyWords cellPosition tok lines)
    obtain ⟨tl, htl⟩ : ∃ tl, List.insertionSort candLE
        (potentialMatchesOf keyWords cellPosition tok lines) = c :: tl := by
      cases h : List.insertionSort candLE
          (potentialMatchesOf keyWords cellPosition tok lines) with
      | nil => rw [h] at hc; simp at hc
      | cons a tl =>
        rw [h] at hc
        simp at hc
        exact ⟨tl, by rw [hc]⟩
    constructor
    · exact hperm.mem_iff.mp (htl ▸ List.mem_cons_self c tl)
    · intro d hd
      have hd' : d ∈ c :: tl := htl ▸ hperm.mem_iff.mpr hd
      rcases List.mem_cons.mp hd' with rfl | hd'
      · unfold candLE; split <;> omega
      · rw [htl] at hsort
        exact (List.sorted_cons.mp hsort).1 d hd'

/-- Claim C2: re-localization scores each line containing a pipe and the
original token by counting key words matching some line token by substring
containment either way, discards score-zero lines and lines whose cell at the
fingerprint cell index is missing or does not contain the token, and picks
the surviving candidate of highest score, ties broken by lowest line index:
the selected candidate is a survivor, no survivor scores higher, no survivor
of equal score has a smaller line index, and the survivors are exactly as
described. -/
theorem C2_relocalization (keyWords : List Str) (cellPosition : Nat) (tok : Str)
    (lines : List Str) (c : Candidate)
    (hc : selectTarget keyWords cellPosition tok lines = some c) :
    c ∈ potentialMatchesOf keyWords cellPosition tok lines
    ∧ (∀ d ∈ potentialMatchesOf keyWords cellPosition tok lines,
        d.matchScore ≤ c.matchScore
        ∧ (d.matchScore = c.matchScore → c.lineIndex ≤ d.lineIndex))
    ∧ (∀ d : Candidate, d ∈ potentialMatchesOf keyWords cellPosition tok lines ↔
        (d.lineIndex < lines.length ∧ lines.getD d.lineIndex [] = d.line
         ∧ containsStr d.line (str "|") = true ∧ containsStr d.line tok = true
         ∧ d.matchedWords = matchedWordsOf keyWords d.line
         ∧ d.matchScore = d.matchedWords.length ∧ 0 < d.matchScore
         ∧ cellPosition < (lineCells d.line).length
         ∧ containsStr ((lineCells d.line).getD cellPosition []) tok = true)) := by
  obtain ⟨hmem, hle⟩ := selectTarget_some keyWords cellPosition tok lines c hc
  refine ⟨hmem, ?_, fun d => mem_potentialMatchesOf keyWords cellPosition tok lines d⟩
  intro d hd
  have h := hle d hd
  unfold candLE at h
  by_cases hsc : c.matchScore = d.matchScore
  · rw [if_pos hsc] at h
    exact ⟨Nat.le_of_eq hsc.symm, fun _ => h⟩
  · rw [if_neg hsc] at h
    exact ⟨Nat.le_of_lt h, fun heq => absurd heq.symm hsc⟩

/-- Witness for C2 on a one-line document with one key word. -/
theorem C2_relocalization_witness :
    (⟨0, str "| [x] alpha |", 1, [str "alpha"]⟩ : Candidate)
      ∈ potentialMatchesOf [str "alpha"] 0 (str "[x]") [str "| [x] alpha |"] :=
  (C2_relocalization [str "alpha"] 0 (str "[x]") [str "| [x] alpha |"]
    ⟨0, str "| [x] alpha |", 1, [str "alpha"]⟩ (by decide)).1

/-- Scanning step: a head character that does not open a token match is
skipped, advancing the index by one. -/
theorem checkboxMatchesAux_cons (c : Char) (s : Str) (i : Nat)
    (h : ¬(c = '[' ∧ ∃ c2 r, s = c2 :: ']' :: r)) :
    checkboxMatchesAux (c :: s) i = checkboxMatchesAux s (i + 1) := by
  rw [checkboxMatchesAux.eq_def]
  split
  · rename_i heq
    exact absurd heq (by simp)
  · rename_i c2 rest heq
    obtain ⟨hc, hs⟩ := List.cons.inj heq
    exact absurd ⟨hc, c2, rest, hs⟩ h
  · rename_i c2 rest heq
    obtain ⟨hc, hs⟩ := List.cons.inj heq
    rw [hs]

/-- A text of whitespace characters contains no checkbox match. -/
theorem checkboxMatchesAux_ws_nil (w : Str) (hw : ∀ c ∈ w, c.isWhitespace = true) :
    ∀ i, checkboxMatchesAux w i = [] := by
  induction w with
  | nil => intro i; rfl
  | cons c rest ih =>
    intro i
    have hc : c ≠ '[' := by
      intro hceq
      subst hceq
      have := hw '[' (List.mem_cons_self _ _)
      simp at this
    rw [checkboxMatchesAux_cons c rest i (by rintro ⟨hceq, _⟩; exact hc hceq)]
    exact ih (fun a ha => hw a (List.mem_cons_of_mem _ ha)) (i + 1)

/-- A whitespace run before the scanned text only shifts the scan index. -/
theorem checkboxMatchesAux_ws_append (w : Str) (hw : ∀ c ∈ w, c.isWhitespace = true)
    (t : Str) : ∀ i, checkboxMatchesAux (w ++ t) i = checkboxMatchesAux t (i + w.length) := by
  induction w with
  | nil => intro i; simp
  | cons c rest ih =>
    intro i
    have hc : c ≠ '[' := by
      intro hceq
      subst hceq
      have := hw '[' (List.mem_cons_self _ _)
      simp at this
    rw [List.cons_append,
      checkboxMatchesAux_cons c (rest ++ t) i (by rintro ⟨hceq, _⟩; exact hc hceq),
      ih (fun a ha => hw a (List.mem_cons_of_mem _ ha)) (i + 1)]
    congr 1
    simp
    omega

/-- The scan with a shifted base index yields shifted match offsets. -/
theorem checkboxMatchesAux_add (s : Str) (i : Nat) :
    ∀ n, checkboxMatchesAux s (i + n)
      = (checkboxMatchesAux s i).map (fun m => (m.1 + n, m.2)) := by
  induction s, i using checkboxMatchesAux.induct with
  | case1 i => intro n; simp [checkboxMatchesAux]
  | case2 c rest i hstate ih =>
    intro n
    simp only [checkboxMatchesAux, hstate, if_true, List.map_cons]
    rw [Nat.add_right_comm i n 3, ih n]
  | case3 c rest i hstate ih =>
    intro n
    simp only [checkboxMatchesAux, hstate, if_false, Bool.false_eq_true]
    rw [Nat.add_right_comm i n 1, ih n]
  | case4 head rest i hshape ih =>
    intro n
    have hstep : ∀ j, checkboxMatchesAux (head :: rest) j = checkboxMatchesAux rest (j + 1) := by
      intro j
      exact checkboxMatchesAux_cons head rest j
        (by rintro ⟨hceq, c2, r, hr⟩; exact hshape c2 r hceq hr)
    rw [hstep, hstep, Nat.add_right_comm i n 1, ih n]

/-- A whitespace run after the scanned text does not change the matches. -/
theorem checkboxMatchesAux_append_ws (w : Str) (hw : ∀ c ∈ w, c.isWhitespace = true) (t : Str) :
    ∀ i, checkboxMatchesAux (t ++ w) i = checkboxMatchesAux t i := by
  induction t, 0 using checkboxMatchesAux.induct with
  | case1 i => intro i; exact checkboxMatchesAux_ws_nil w hw i
  | case2 c rest i hstate ih =>
    intro i
    simp only [List.cons_append, checkboxMatchesAux, hstate, if_true]
    exact congrArg (List.cons _) (ih (i + 3))
  | case3 c rest i hstate ih =>
    intro i
    simp only [List.cons_append, checkboxMatchesAux, hstate, if_false, Bool.false_eq_true]
    exact ih (i + 1)
  | case4 head rest i hshape ih =>
    intro i
    have hr : ¬(head = '[' ∧ ∃ c2 r, rest = c2 :: ']' :: r) := by
      rintro ⟨hceq, c2, r, hrr⟩
      exact hshape c2 r hceq hrr
    have hrw : ¬(head = '[' ∧ ∃ c2 r, rest ++ w = c2 :: ']' :: r) := by
      rintro ⟨hceq, c2, r, hrr⟩
      match rest, hrr with
      | [], hrr =>
        have hw2 : w = c2 :: ']' :: r := by simpa using hrr
        have : ']' ∈ w := by rw [hw2]; exact List.mem_cons_of_mem _ (List.mem_cons_self _ _)
        have := hw ']' this
        simp at this
      | [a], hrr =>
        have h5 := List.cons.inj hrr
        have hw2 : w = ']' :: r := by simpa using h5.2
        have hwm : ']' ∈ w := by rw [hw2]; exact List.mem_cons_self _ _
        have := hw ']' hwm
        simp at this
      | a :: b :: r2, hrr =>
        have h1 := List.cons.inj hrr
        have h2 := List.cons.inj h1.2
        exact hshape a r2 hceq (by rw [h2.1])
    rw [List.cons_append, checkboxMatchesAux_cons head (rest ++ w) i hrw,
      checkboxMatchesAux_cons head rest i hr]
    exact ih (i + 1)

/-- Match offsets over a text sandwiched in whitespace are the offsets over
the core shifted by the leading whitespace length. -/
theorem checkboxMatches_sandwich (w0 t w1 : Str)
    (h0 : ∀ c ∈ w0, c.isWhitespace = true) (h1 : ∀ c ∈ w1, c.isWhitespace = true) :
    (checkboxMatches (w0 ++ (t ++ w1))).map Prod.fst
      = (checkboxMatches t).map (fun m => m.1 + w0.length) := by
  unfold checkboxMatches
  rw [checkboxMatchesAux_ws_append w0 h0 (t ++ w1) 0,
    checkboxMatchesAux_append_ws w1 h1 t (0 + w0.length),
    checkboxMatchesAux_add t 0 w0.length,
    List.map_map]
  rfl

/-- Every text splits as leading whitespace, trimmed core, trailing
whitespace. -/
theorem jsTrim_decomposition (s : Str) :
    s = s.takeWhile Char.isWhitespace
      ++ (jsTrim s
          ++ ((s.dropWhile Char.isWhitespace).reverse.takeWhile Char.isWhitespace).reverse) := by
  have h2 : (s.dropWhile Char.isWhitespace).reverse.takeWhile Char.isWhitespace
      ++ (s.dropWhile Char.isWhitespace).reverse.dropWhile Char.isWhitespace
      = (s.dropWhile Char.isWhitespace).reverse :=
    List.takeWhile_append_dropWhile Char.isWhitespace (s.dropWhile Char.isWhitespace).reverse
  have h3 : jsTrim s
      ++ ((s.dropWhile Char.isWhitespace).reverse.takeWhile Char.isWhitespace).reverse
      = s.dropWhile Char.isWhitespace := by
    unfold jsTrim
    rw [← List.reverse_append, h2, List.reverse_reverse]
  rw [h3, List.takeWhile_append_dropWhile Char.isWhitespace s]

/-- Claim C4, counterexample: for a cell whose raw text carries leading
whitespace, the offset recorded in the fingerprint at render time (computed
over the raw cell text) is not the offset of the token within the trimmed
cell text. -/
theorem C4_counterexample :
    (renderFingerprints [] 0 (str " [x]")).map Fingerprint.offset = [1]
    ∧ (checkboxMatches (jsTrim (str " [x]"))).map Prod.fst = [0]
    ∧ ([1] : List Nat) ≠ [0] := by decide

/-- Claim C4, amended: the in-cell offset recorded at render time is the
character offset of the match within the raw (untrimmed) cell text, which
exceeds the offset within the trimmed cell text by exactly the length of the
leading whitespace of the cell text; the two coincide exactly when the cell
text has no leading whitespace. -/
theorem C4_inCellOffset (rowText : Str) (cellPosition : Nat) (cellText : Str) :
    (renderFingerprints rowText cellPosition cellText).map Fingerprint.offset
      = (checkboxMatches (jsTrim cellText)).map
          (fun m => m.1 + (cellText.takeWhile Char.isWhitespace).length) := by
  have hfp : (renderFingerprints rowText cellPosition cellText).map Fingerprint.offset
      = (checkboxMatches cellText).map Prod.fst := by
    unfold renderFingerprints
    rw [List.map_map]
    rfl
  rw [hfp]
  conv_lhs => rw [jsTrim_decomposition cellText]
  exact checkboxMatches_sandwich _ _ _
    (fun c hc => List.mem_takeWhile_imp hc)
    (fun c hc => List.mem_takeWhile_imp (List.mem_reverse.mp hc))
